import Mathlib

/-!
Verification of the AlexNet-Visualization backend (src/backend/model.py and
src/backend/utils.py) against its natural-language specification.

The Python code is shallowly embedded: pure numeric computations are modelled
over `ℚ` (the source computes with floating point; the spec's properties are
stated up to floating tolerance, which exact rational arithmetic realises
exactly), tensors are modelled as lists, Python dicts as association lists in
insertion order, and operations delegated to external libraries (the
pretrained network, the exponential in softmax, bilinear interpolation, the
image codec) are abstracted by parameters constrained exactly as the libraries
guarantee.
-/

namespace AlexNetViz

/-! ## model.py: static layer data -/

/-- Source: model.py, `get_all_layer_names` (lines 404-415): the fixed list of
capturable layer names, returned verbatim. -/
def get_all_layer_names : List String :=
  ["conv1", "relu1", "pool1",
   "conv2", "relu2", "pool2",
   "conv3", "relu3",
   "conv4", "relu4",
   "conv5", "relu5", "pool5",
   "fc6", "relu6",
   "fc7", "relu7",
   "fc8", "softmax"]

/-- Source: model.py, `_register_hooks` (lines 216-230): the `feature_layers`
dict mapping indices of `model.features` to stage names. -/
def feature_layers : List (Nat × String) :=
  [(0, "conv1"), (1, "relu1"), (2, "pool1"),
   (3, "conv2"), (4, "relu2"), (5, "pool2"),
   (6, "conv3"), (7, "relu3"),
   (8, "conv4"), (9, "relu4"),
   (10, "conv5"), (11, "relu5"), (12, "pool5")]

/-- Source: model.py, `_register_hooks` (lines 252-258): the
`classifier_layers` dict mapping indices of `model.classifier` to names. -/
def classifier_layers : List (Nat × String) :=
  [(1, "fc6"), (2, "relu6"), (4, "fc7"), (5, "relu7"), (6, "fc8")]

/-- Source: model.py, `_register_hooks` (lines 232-263): the names under which
forward hooks are registered, in module execution order: the thirteen feature
stages, then `avgpool` (line 239-241), then the five classifier stages.  One
forward pass fires each of these hooks exactly once, in this order. -/
def registeredHookNames : List String :=
  feature_layers.map Prod.snd ++ ["avgpool"] ++ classifier_layers.map Prod.snd

/-- Python dict insertion `d[k] = v`: overwrites in place if the key is
present, otherwise appends at the end (Python dicts preserve insertion
order). -/
def dictInsert {α : Type} (d : List (String × α)) (k : String) (v : α) :
    List (String × α) :=
  if d.any (fun p => p.1 == k) then
    d.map (fun p => if p.1 == k then (k, v) else p)
  else d ++ [(k, v)]

/-- Source: model.py, `predict` (line 295) and `compute_gradcam` (line 329)
both do `self.activations.clear()` and then run one forward pass, during which
each registered forward hook stores its output under its name
(`_get_activation_hook`, lines 265-269).  The resulting dict, modelled with
the hook values abstracted away (only the key structure matters for the
snapshot-key invariant). -/
def snapshotAfterForward : List (String × Unit) :=
  registeredHookNames.foldl (fun d n => dictInsert d n ()) []

/-- The key set of the ActivationSnapshot produced by one evaluation
(`predict` or `compute_gradcam`). -/
def snapshotKeys : List String := snapshotAfterForward.map Prod.fst

/-- Values stored in a `LAYER_INFO` descriptor: strings or integers. -/
inductive InfoVal where
  | str : String → InfoVal
  | nat : Nat → InfoVal
deriving DecidableEq, Repr

/-- Source: model.py, `LAYER_INFO` (lines 29-154), transcribed in full:
a dict from layer name to a descriptor dict. -/
def LAYER_INFO : List (String × List (String × InfoVal)) :=
  [("conv1",
    [("name", InfoVal.str ("Convolution Layer 1")),
     ("kernel_size", InfoVal.str ("11x11")),
     ("stride", InfoVal.nat 4),
     ("filters", InfoVal.nat 64),
     ("description", InfoVal.str ("Extracts low-level features like edges, corners, and basic textures. Uses large 11x11 kernels to capture broad spatial patterns from the input image.")),
     ("formula", InfoVal.str ("y = Σ(x * w) + b where * is convolution"))]),
   ("relu1",
    [("name", InfoVal.str ("ReLU Activation 1")),
     ("description", InfoVal.str ("Applies non-linear activation to introduce non-linearity into the model. Zeros out negative values while keeping positive values unchanged.")),
     ("formula", InfoVal.str ("f(x) = max(0, x)"))]),
   ("pool1",
    [("name", InfoVal.str ("Max Pooling 1")),
     ("kernel_size", InfoVal.str ("3x3")),
     ("stride", InfoVal.nat 2),
     ("description", InfoVal.str ("Reduces spatial dimensions while retaining the most important features. Takes the maximum value from each 3x3 region.")),
     ("formula", InfoVal.str ("y = max(x[i:i+k, j:j+k])"))]),
   ("conv2",
    [("name", InfoVal.str ("Convolution Layer 2")),
     ("kernel_size", InfoVal.str ("5x5")),
     ("stride", InfoVal.nat 1),
     ("filters", InfoVal.nat 192),
     ("description", InfoVal.str ("Builds upon low-level features to detect more complex patterns like textures and simple shapes.")),
     ("formula", InfoVal.str ("y = Σ(x * w) + b"))]),
   ("relu2",
    [("name", InfoVal.str ("ReLU Activation 2")),
     ("description", InfoVal.str ("Non-linear activation that helps the network learn complex decision boundaries.")),
     ("formula", InfoVal.str ("f(x) = max(0, x)"))]),
   ("pool2",
    [("name", InfoVal.str ("Max Pooling 2")),
     ("kernel_size", InfoVal.str ("3x3")),
     ("stride", InfoVal.nat 2),
     ("description", InfoVal.str ("Further reduces spatial dimensions and provides translation invariance.")),
     ("formula", InfoVal.str ("y = max(x[i:i+k, j:j+k])"))]),
   ("conv3",
    [("name", InfoVal.str ("Convolution Layer 3")),
     ("kernel_size", InfoVal.str ("3x3")),
     ("stride", InfoVal.nat 1),
     ("filters", InfoVal.nat 384),
     ("description", InfoVal.str ("Detects higher-level features by combining patterns from previous layers.")),
     ("formula", InfoVal.str ("y = Σ(x * w) + b"))]),
   ("relu3",
    [("name", InfoVal.str ("ReLU Activation 3")),
     ("description", InfoVal.str ("Continues to add non-linearity for learning complex patterns.")),
     ("formula", InfoVal.str ("f(x) = max(0, x)"))]),
   ("conv4",
    [("name", InfoVal.str ("Convolution Layer 4")),
     ("kernel_size", InfoVal.str ("3x3")),
     ("stride", InfoVal.nat 1),
     ("filters", InfoVal.nat 256),
     ("description", InfoVal.str ("Further refines feature representations, detecting object parts and complex textures.")),
     ("formula", InfoVal.str ("y = Σ(x * w) + b"))]),
   ("relu4",
    [("name", InfoVal.str ("ReLU Activation 4")),
     ("description", InfoVal.str ("Non-linear activation for learning hierarchical feature representations.")),
     ("formula", InfoVal.str ("f(x) = max(0, x)"))]),
   ("conv5",
    [("name", InfoVal.str ("Convolution Layer 5")),
     ("kernel_size", InfoVal.str ("3x3")),
     ("stride", InfoVal.nat 1),
     ("filters", InfoVal.nat 256),
     ("description", InfoVal.str ("Extracts the highest-level visual features, often corresponding to semantic concepts and object parts.")),
     ("formula", InfoVal.str ("y = Σ(x * w) + b"))]),
   ("relu5",
    [("name", InfoVal.str ("ReLU Activation 5")),
     ("description", InfoVal.str ("Final convolutional non-linearity before pooling.")),
     ("formula", InfoVal.str ("f(x) = max(0, x)"))]),
   ("pool5",
    [("name", InfoVal.str ("Max Pooling 3")),
     ("kernel_size", InfoVal.str ("3x3")),
     ("stride", InfoVal.nat 2),
     ("description", InfoVal.str ("Final spatial reduction before fully connected layers.")),
     ("formula", InfoVal.str ("y = max(x[i:i+k, j:j+k])"))]),
   ("flatten",
    [("name", InfoVal.str ("Flatten")),
     ("description", InfoVal.str ("Converts 3D feature maps into a 1D vector for the fully connected layers.")),
     ("formula", InfoVal.str ("y = reshape(x, (batch_size, -1))"))]),
   ("fc6",
    [("name", InfoVal.str ("Fully Connected Layer 1")),
     ("neurons", InfoVal.nat 4096),
     ("description", InfoVal.str ("First fully connected layer that combines all spatial features for high-level reasoning.")),
     ("formula", InfoVal.str ("y = Wx + b"))]),
   ("relu6",
    [("name", InfoVal.str ("ReLU Activation 6")),
     ("description", InfoVal.str ("Non-linear activation in the fully connected layers.")),
     ("formula", InfoVal.str ("f(x) = max(0, x)"))]),
   ("fc7",
    [("name", InfoVal.str ("Fully Connected Layer 2")),
     ("neurons", InfoVal.nat 4096),
     ("description", InfoVal.str ("Second fully connected layer for further feature abstraction.")),
     ("formula", InfoVal.str ("y = Wx + b"))]),
   ("relu7",
    [("name", InfoVal.str ("ReLU Activation 7")),
     ("description", InfoVal.str ("Non-linear activation before the final classification layer.")),
     ("formula", InfoVal.str ("f(x) = max(0, x)"))]),
   ("fc8",
    [("name", InfoVal.str ("Output Layer")),
     ("neurons", InfoVal.nat 1000),
     ("description", InfoVal.str ("Final classification layer that outputs raw scores (logits) for each of the 1000 ImageNet classes.")),
     ("formula", InfoVal.str ("y = Wx + b"))]),
   ("softmax",
    [("name", InfoVal.str ("Softmax")),
     ("description", InfoVal.str ("Converts raw logits into probability distribution. Each output represents the probability of the input belonging to that class.")),
     ("formula", InfoVal.str ("P(class_i) = e^(z_i) / Σ(e^(z_j))"))])]

/-- Source: model.py, `get_layer_info` (lines 400-402):
`self.LAYER_INFO.get(layer_name, {})` — a total dict lookup defaulting to the
empty dict; it cannot throw. -/
def get_layer_info (layer_name : String) : List (String × InfoVal) :=
  (LAYER_INFO.lookup layer_name).getD []

/-- Source: model.py, `get_filter_weights` (lines 385-391): the `layer_map`
dict from convolutional stage name to index in `model.features`. -/
def layer_map : List (String × Nat) :=
  [("conv1", 0), ("conv2", 3), ("conv3", 6), ("conv4", 8), ("conv5", 10)]

/-- The shape (out_channels, in_channels, kernel_h, kernel_w) of the weight
tensor of the convolutional module at each index of `model.features`, from
the AlexNet architecture recorded in the source comments of
`_register_hooks` (model.py lines 201-214): Conv2d(3, 64, 11), Conv2d(64,
192, 5), Conv2d(192, 384, 3), Conv2d(384, 256, 3), Conv2d(256, 256, 3). -/
def featuresWeightShape : Nat → Option (Nat × Nat × Nat × Nat)
  | 0 => some (64, 3, 11, 11)
  | 3 => some (192, 64, 5, 5)
  | 6 => some (384, 192, 3, 3)
  | 8 => some (256, 384, 3, 3)
  | 10 => some (256, 256, 3, 3)
  | _ => none

/-- Source: model.py, `get_filter_weights` (lines 383-398): returns `None`
when the name is not in `layer_map`, otherwise the weight tensor of
`model.features[layer_map[layer_name]]`, modelled by its shape (the weight
values themselves are opaque pretrained data). -/
def get_filter_weights (layer_name : String) : Option (Nat × Nat × Nat × Nat) :=
  match layer_map.lookup layer_name with
  | none => none
  | some idx => featuresWeightShape idx

/-! ## model.py: predict -/

/-- Source: model.py, `predict` (line 304):
`torch.nn.functional.softmax(output[0], dim=0)`, i.e. `exp zᵢ / Σⱼ exp zⱼ`.
The exponential is evaluated by the external numerics library; it is passed
here as a parameter `expf`, constrained (where needed) only by the property
the library guarantees, strict positivity. -/
def softmax (expf : ℚ → ℚ) (logits : List ℚ) : List ℚ :=
  logits.map (fun z => expf z / (logits.map expf).sum)

/-- Comparison used to model `torch.topk(·, k)` with sorted descending
output: larger value first; equal values are delivered in the native output
ordering, i.e. by ascending index. -/
def topkLe (a b : Nat × ℚ) : Bool :=
  decide (b.2 < a.2 ∨ (a.2 = b.2 ∧ a.1 ≤ b.1))

/-- Source: model.py, `predict` (line 307): `torch.topk(probabilities, 5)` —
the `k` pairs (index, probability) with the largest probabilities, in
descending probability order, ties broken by ascending index. -/
def topk (k : Nat) (probs : List ℚ) : List (Nat × ℚ) :=
  (probs.enum.mergeSort topkLe).take k

/-- Source: model.py, `predict` (lines 294-316).  The opaque pretrained
network maps the preprocessed image to a logit vector `logits` (the `fc8`
output); `predict` then applies softmax, takes the top 5, pairs them with
labels (`self.labels[idx]`, modelled totally with `getD`), and returns
`(best_class, top5_predictions, activations)` where `best_class` is
`labels[top5_idx[0]]` and the activations snapshot is keyed as in
`snapshotKeys`. -/
def predict (expf : ℚ → ℚ) (labels : List String) (logits : List ℚ) :
    String × List (String × ℚ) × List String :=
  let probabilities := softmax expf logits
  let top5 := topk 5 probabilities
  let top5_predictions := top5.map (fun p => (labels.getD p.1 (""), p.2))
  let best_label := labels.getD ((top5.headD (0, 0)).1) ("")
  (best_label, top5_predictions, snapshotKeys)

/-! ## model.py: compute_gradcam -/

/-- The name of the one-shot backward hook `compute_gradcam` registers on
`self.model.features[10]` (conv5), model.py lines 337-343. -/
def gradHookName : String := "conv5_backward"

/-- Source: model.py, `compute_gradcam` (lines 318-381), restricted to its
hook bookkeeping.  The call registers a backward hook (line 343:
`handle = target_layer.register_backward_hook(save_gradient)`) after
preprocessing, then runs the forward pass, seeds the backward pass from
`output[0, target_class]` (line 354) — which raises IndexError when the
supplied class index is out of range of the 1000-column output — and only
after all of that removes the hook (line 379: `handle.remove()`).  There is
no try/finally: an exception raised between attach and remove propagates with
the hook still registered.  The state is the list of registered backward
hooks; a failed call returns `Except.error` carrying the hook state at the
moment the exception escapes. -/
def compute_gradcam_hookState (hooks : List String) (targetIdx : Option Nat) :
    Except (List String) (List String) :=
  let attached := hooks ++ [gradHookName]
  let t := targetIdx.getD 0
  if 1000 ≤ t then Except.error attached
  else Except.ok (attached.erase gradHookName)

/-- numpy-style minimum of a nonempty list (`.min()`); 0 on the empty list,
on which the source would raise. -/
def listMin : List ℚ → ℚ
  | [] => 0
  | x :: xs => xs.foldl min x

/-- numpy-style maximum of a nonempty list (`.max()`). -/
def listMax : List ℚ → ℚ
  | [] => 0
  | x :: xs => xs.foldl max x

/-- Source: model.py, `compute_gradcam` line 361:
`weights = gradient.mean(dim=(2, 3))` — the spatial mean of one channel of
the captured gradient. -/
def spatialMean (g : List ℚ) : ℚ := g.sum / (g.length : ℚ)

/-- Pointwise sum of two equally-long spatial maps. -/
def zipAdd (a b : List ℚ) : List ℚ := List.zipWith (· + ·) a b

/-- Source: model.py, `compute_gradcam` line 362:
`cam = (weights * activation).sum(dim=1)` — the raw weighted activation map:
each channel of the conv5 activation scaled by its channel weight
(the spatial mean of that channel's gradient), summed over channels.
`grads` and `acts` list the channels (each a flattened spatial map of length
`spatialLen`). -/
def weightedCam (grads acts : List (List ℚ)) (spatialLen : Nat) : List ℚ :=
  (grads.zip acts).foldr
    (fun p s => zipAdd (p.2.map (fun x => spatialMean p.1 * x)) s)
    (List.replicate spatialLen 0)

/-- Source: model.py, `compute_gradcam` line 363: `cam = torch.relu(cam)`. -/
def reluMap (cam : List ℚ) : List ℚ := cam.map (fun x => max x 0)

/-- Source: model.py, `compute_gradcam` lines 366-368:
`cam = cam - cam.min(); if cam.max() > 0: cam = cam / cam.max()`. -/
def gradcamNormalize (cam : List ℚ) : List ℚ :=
  let shifted := cam.map (fun x => x - listMin cam)
  if 0 < listMax shifted then shifted.map (fun x => x / listMax shifted)
  else shifted

/-- Dot product of a weight row with a map (trailing unmatched entries of
either side contribute nothing). -/
def dotQ : List ℚ → List ℚ → ℚ
  | [], _ => 0
  | _ :: _, [] => 0
  | a :: as, b :: bs => a * b + dotQ as bs

/-- Source: model.py, `compute_gradcam` lines 371-373:
`torch.nn.functional.interpolate(cam, size=(224, 224), mode='bilinear')`.
Bilinear interpolation is delegated to the external library; it is modelled
as an arbitrary linear resampling operator given by one weight row per output
pixel.  The library guarantees each output pixel is a convex combination of
input pixels: nonnegative weights summing to 1 (hypotheses
`ConvexWeights`). -/
def applyWeights (W : List (List ℚ)) (l : List ℚ) : List ℚ :=
  W.map (fun row => dotQ row l)

/-- The property bilinear (or any) interpolation weights satisfy: every
output pixel is a convex combination of input pixels. -/
def ConvexWeights (W : List (List ℚ)) (n : Nat) : Prop :=
  ∀ row ∈ W, (∀ w ∈ row, 0 ≤ w) ∧ row.length = n ∧ row.sum = 1

/-- Source: model.py, `compute_gradcam` lines 360-376: the heatmap returned
for a raw weighted activation map `cam`, resampled by the interpolation
operator `W`: ReLU, then min-max normalization, then bilinear resize. -/
def compute_gradcam_heatmap (W : List (List ℚ)) (cam : List ℚ) : List ℚ :=
  applyWeights W (gradcamNormalize (reluMap cam))

/-! ## utils.py -/

/-- Source: utils.py, `tensor_to_image` (lines 20-43).  With
`normalize=True`: subtract the minimum, divide by the maximum only if it is
positive, scale by 255 and truncate to integers (`astype(np.uint8)`; the
values are in [0, 255] at that point so the cast is plain truncation).  With
`normalize=False`: clip to [0, 255] and truncate.  The division site is
modelled as checked: it returns `none` if a division by zero would be
performed there, so that reachability of the division-by-zero branch is a
provable statement. -/
def tensor_to_image (img : List ℚ) (normalize : Bool) : Option (List ℤ) :=
  if normalize then
    let shifted := img.map (fun x => x - listMin img)
    if 0 < listMax shifted then
      if listMax shifted = 0 then none
      else some ((shifted.map (fun x => x / listMax shifted)).map
        (fun x => Int.floor (x * 255)))
    else some (shifted.map (fun x => Int.floor (x * 255)))
  else some (img.map (fun x => Int.floor (min (max x 0) 255)))

/-- Source: utils.py, `resize_image_for_preview` (lines 492-507):
`ratio = min(max_size / width, max_size / height)`; if `ratio < 1` the image
is resized to `(int(width * ratio), int(height * ratio))` (Python `int`
truncates; the operands are nonnegative, so this is the floor), otherwise it
is returned unchanged.  Only the dimensions are modelled; the pixel
resampling is the external library's. -/
def resize_image_for_preview (w h max_size : Nat) : Nat × Nat :=
  let ratio : ℚ := min ((max_size : ℚ) / (w : ℚ)) ((max_size : ℚ) / (h : ℚ))
  if ratio < 1 then
    ((Int.floor ((w : ℚ) * ratio)).toNat, (Int.floor ((h : ℚ) * ratio)).toNat)
  else (w, h)

/-! ## utils.py: base64 transport encoding

`pil_to_base64` saves the image through the external codec and base64-encodes
the bytes; `base64_to_pil` strips a data-URL prefix, base64-decodes, and
opens the bytes through the codec.  The base64 encoding (RFC 4648, the
alphabet used by Python's `base64.b64encode`/`b64decode`) is implemented
here; the image codec is a parameter. -/

/-- The standard base64 alphabet, as used by `base64.b64encode`. -/
def b64Alphabet : List Char :=
  "ABCDEFGHIJKLMNOPQRSTUVWXYZabcdefghijklmnopqrstuvwxyz0123456789+/".toList

/-- Character for a 6-bit group. -/
def b64Char (i : Nat) : Char := b64Alphabet.getD i '='

/-- 6-bit group for a character of the alphabet. -/
def b64Index (c : Char) : Nat := b64Alphabet.indexOf c

/-- Bytes to 6-bit groups, processing three bytes into four groups, with the
standard short final block (one byte → two groups, two bytes → three). -/
def bytesToSextets : List Nat → List Nat
  | a :: b :: c :: rest =>
    a / 4 :: (a % 4 * 16 + b / 16) :: (b % 16 * 4 + c / 64) :: c % 64 ::
      bytesToSextets rest
  | [a] => [a / 4, a % 4 * 16]
  | [a, b] => [a / 4, a % 4 * 16 + b / 16, b % 16 * 4]
  | [] => []

/-- 6-bit groups back to bytes, the inverse regrouping. -/
def sextetsToBytes : List Nat → List Nat
  | w :: x :: y :: z :: rest =>
    (w * 4 + x / 16) :: (x % 16 * 16 + y / 4) :: (y % 4 * 64 + z) ::
      sextetsToBytes rest
  | [w, x] => [w * 4 + x / 16]
  | [w, x, y] => [w * 4 + x / 16, x % 16 * 16 + y / 4]
  | _ => []

/-- Number of `=` padding characters: pad the character stream to a multiple
of four. -/
def b64PadLength (n : Nat) : Nat := (4 - n % 4) % 4

/-- `base64.b64encode`: alphabet characters for the 6-bit groups, plus
padding. -/
def b64encode (bytes : List Nat) : List Char :=
  (bytesToSextets bytes).map b64Char ++
    List.replicate (b64PadLength (bytesToSextets bytes).length) '='

/-- `base64.b64decode` on well-formed input: drop padding, map characters
back to 6-bit groups, regroup into bytes. -/
def b64decode (s : List Char) : List Nat :=
  sextetsToBytes ((s.filter (fun c => c != '=')).map b64Index)

/-- Python's `str.split(',')`. -/
def splitOnComma : List Char → List (List Char)
  | [] => [[]]
  | c :: rest =>
    if c = ',' then [] :: splitOnComma rest
    else
      match splitOnComma rest with
      | [] => [[c]]
      | h :: t => (c :: h) :: t

/-- Source: utils.py, `base64_to_pil` (lines 152-154):
`if ',' in base64_str: base64_str = base64_str.split(',')[1]`. -/
def stripDataURL (s : List Char) : List Char :=
  if ',' ∈ s then (splitOnComma s).getD 1 [] else s

/-- Source: utils.py, `pil_to_base64` (lines 125-139): save the image to a
bytes buffer through the (lossless, external) codec `save`, then base64
encode. -/
def pil_to_base64 {α : Type} (save : α → List Nat) (img : α) : List Char :=
  b64encode (save img)

/-- Source: utils.py, `base64_to_pil` (lines 142-157): strip a data-URL
prefix if present, base64 decode, and open through the codec `load`. -/
def base64_to_pil {α : Type} (load : List Nat → α) (s : List Char) : α :=
  load (b64decode (stripDataURL s))

/-! ## Helper lemmas -/

theorem lookup_eq_none_of_not_mem_keys {β : Type} :
    ∀ (l : List (String × β)) (k : String),
      k ∉ l.map Prod.fst → l.lookup k = none := by
  intro l
  induction l with
  | nil => intro k _; rfl
  | cons p t ih =>
    intro k hk
    simp only [List.map_cons, List.mem_cons] at hk
    push_neg at hk
    simp only [List.lookup]
    have hne : (k == p.1) = false := beq_eq_false_iff_ne.mpr hk.1
    rw [hne]
    exact ih k hk.2

/-! ## C1 -/

/-- C1 counterexample.  The claim says the keys of the ActivationSnapshot are
a subset of `get_all_layer_names()`.  They are not: `_register_hooks` also
registers a forward hook named `avgpool` (model.py lines 238-241), so every
evaluation stores an `avgpool` entry, and `avgpool` is not in the list
returned by `get_all_layer_names` (which conversely lists `softmax`, a stage
no hook ever captures). -/
theorem C1_counterexample :
    ("avgpool") ∈ snapshotKeys ∧ ("avgpool") ∉ get_all_layer_names := by
  decide

/-- C1 amended: the keys of the ActivationSnapshot produced by an evaluation
(`predict` or `compute_gradcam`) are pairwise distinct, and as a set they
are exactly `get_all_layer_names()` with `softmax` removed and `avgpool`
added: each key is either `avgpool` or a member of `get_all_layer_names()`
other than `softmax`; conversely every member of `get_all_layer_names()`
other than `softmax` is a key, `avgpool` is a key, and `softmax` is not. -/
theorem C1_theorem :
    snapshotKeys.Nodup ∧
      (∀ k ∈ snapshotKeys,
        k = "avgpool" ∨ (k ∈ get_all_layer_names ∧ k ≠ "softmax")) ∧
      (∀ k ∈ get_all_layer_names, k ≠ "softmax" → k ∈ snapshotKeys) ∧
      ("avgpool") ∈ snapshotKeys ∧ ("softmax") ∉ snapshotKeys := by
  decide

theorem C1_witness :
    ("conv1") ∈ snapshotKeys ∧
      (("conv1") = "avgpool" ∨
        (("conv1") ∈ get_all_layer_names ∧ ("conv1") ≠ "softmax")) ∧
      ("fc8") ∈ snapshotKeys :=
  ⟨by decide, C1_theorem.2.1 ("conv1") (by decide),
   C1_theorem.2.2.1 ("fc8") (by decide) (by decide)⟩

/-! ## C5 -/

/-- C5: `get_filter_weights` returns a 4-dimensional weight shape
(out_channels, in_channels, kernel_h, kernel_w) for each of the five known
convolutional stage names, and `none` for every other string, classifier
names included. -/
theorem C5_theorem :
    ∀ layer_name : String,
      (layer_name ∈ ["conv1", "conv2", "conv3", "conv4", "conv5"] →
        ∃ o i kh kw, get_filter_weights layer_name = some (o, i, kh, kw)) ∧
      (layer_name ∉ ["conv1", "conv2", "conv3", "conv4", "conv5"] →
        get_filter_weights layer_name = none) := by
  intro layer_name
  constructor
  · intro h
    fin_cases h
    · exact ⟨64, 3, 11, 11, rfl⟩
    · exact ⟨192, 64, 5, 5, rfl⟩
    · exact ⟨384, 192, 3, 3, rfl⟩
    · exact ⟨256, 384, 3, 3, rfl⟩
    · exact ⟨256, 256, 3, 3, rfl⟩
  · intro h
    have hkeys : layer_name ∉ layer_map.map Prod.fst := by
      intro hmem
      apply h
      have : layer_map.map Prod.fst =
          ["conv1", "conv2", "conv3", "conv4", "conv5"] := by decide
      rwa [this] at hmem
    unfold get_filter_weights
    rw [lookup_eq_none_of_not_mem_keys layer_map layer_name hkeys]

theorem C5_witness :
    (∃ o i kh kw, get_filter_weights ("conv1") = some (o, i, kh, kw)) ∧
      get_filter_weights ("fc8") = none :=
  ⟨(C5_theorem ("conv1")).1 (by decide), (C5_theorem ("fc8")).2 (by decide)⟩

/-! ## C6 -/

/-- C6 counterexample.  The claim says `get_layer_info` returns an
empty/absent result for every string outside `get_all_layer_names()`.  But
`LAYER_INFO` also has a `flatten` entry (model.py lines 116-120), and
`flatten` is not a name returned by `get_all_layer_names`, so
`get_layer_info("flatten")` is a non-empty descriptor for a name outside the
list. -/
theorem C6_counterexample :
    get_layer_info ("flatten") ≠ [] ∧ ("flatten") ∉ get_all_layer_names := by
  decide

/-- C6 amended: `get_layer_info` is total and never throws; it returns a
non-empty descriptor for every name in `get_all_layer_names()` and also for
the extra name `flatten`, and the empty result for every other string. -/
theorem C6_theorem :
    (∀ layer_name ∈ get_all_layer_names, get_layer_info layer_name ≠ []) ∧
      get_layer_info ("flatten") ≠ [] ∧
      ∀ layer_name : String,
        layer_name ∉ ("flatten" :: get_all_layer_names) →
          get_layer_info layer_name = [] := by
  refine ⟨?_, by decide, ?_⟩
  · intro layer_name h
    simp only [get_all_layer_names] at h
    fin_cases h <;> decide
  · intro layer_name h
    have hkeys : layer_name ∉ LAYER_INFO.map Prod.fst := by
      intro hmem
      apply h
      have hk : ∀ k, k ∈ LAYER_INFO.map Prod.fst →
          k ∈ ("flatten" :: get_all_layer_names) := by
        intro k hkmem
        have : LAYER_INFO.map Prod.fst =
            ["conv1", "relu1", "pool1", "conv2", "relu2", "pool2",
             "conv3", "relu3", "conv4", "relu4", "conv5", "relu5", "pool5",
             "flatten", "fc6", "relu6", "fc7", "relu7", "fc8", "softmax"] := by
          rfl
        rw [this] at hkmem
        fin_cases hkmem <;> decide
      exact hk layer_name hmem
    unfold get_layer_info
    rw [lookup_eq_none_of_not_mem_keys LAYER_INFO layer_name hkeys]
    rfl

theorem C6_witness :
    get_layer_info ("conv1") ≠ [] ∧ get_layer_info ("banana") = [] :=
  ⟨C6_theorem.1 ("conv1") (by decide), C6_theorem.2.2 ("banana") (by decide)⟩

/-! ## C2 -/

/-- C2 counterexample.  The claim says the gradient-capture hook is released
on every exit path, including failure.  It is not: `handle.remove()` (line
379) is not in a try/finally, so a call that fails after the hook is attached
— for example `compute_gradcam(image, target_class=1000)`, whose
`output[0, 1000]` raises IndexError on the 1000-column output — exits with
the hook still registered. -/
theorem C2_counterexample :
    compute_gradcam_hookState [] (some 1000) = Except.error [gradHookName] ∧
      gradHookName ∈ [gradHookName] :=
  ⟨rfl, by decide⟩

/-- C2 amended: `compute_gradcam` attaches its gradient-capture hook after
preprocessing and removes it on the successful exit path, restoring the
pre-call hook state; but on an exit by failure raised between attach and
remove (such as an out-of-range target class) the hook attached by the call
remains registered. -/
theorem C2_theorem :
    ∀ hooks : List String, gradHookName ∉ hooks →
      (∀ t : Option Nat, t.getD 0 < 1000 →
        compute_gradcam_hookState hooks t = Except.ok hooks) ∧
      (∀ t : Option Nat, 1000 ≤ t.getD 0 →
        compute_gradcam_hookState hooks t =
          Except.error (hooks ++ [gradHookName]) ∧
        gradHookName ∈ hooks ++ [gradHookName]) := by
  intro hooks hnomem
  constructor
  · intro t ht
    unfold compute_gradcam_hookState
    rw [if_neg (by omega)]
    rw [List.erase_append_right _ hnomem]
    simp [List.erase_cons_head]
  · intro t ht
    unfold compute_gradcam_hookState
    rw [if_pos ht]
    exact ⟨rfl, by simp⟩

theorem C2_witness :
    gradHookName ∉ ([] : List String) ∧
      (some 5 : Option Nat).getD 0 < 1000 ∧
      compute_gradcam_hookState [] (some 5) = Except.ok [] :=
  ⟨by decide, by decide, (C2_theorem [] (by decide)).1 (some 5) (by decide)⟩

/-! ## listMin / listMax lemmas -/

theorem foldl_min_le_init : ∀ (xs : List ℚ) (a : ℚ), xs.foldl min a ≤ a := by
  intro xs
  induction xs with
  | nil => intro a; exact le_refl a
  | cons x xs ih =>
    intro a
    calc (x :: xs).foldl min a = xs.foldl min (min a x) := rfl
    _ ≤ min a x := ih (min a x)
    _ ≤ a := min_le_left a x

theorem foldl_min_le_mem :
    ∀ (xs : List ℚ) (a x : ℚ), x ∈ xs → xs.foldl min a ≤ x := by
  intro xs
  induction xs with
  | nil => intro a x hx; exact absurd hx (List.not_mem_nil x)
  | cons y ys ih =>
    intro a x hx
    rcases List.mem_cons.mp hx with rfl | hmem
    · calc (x :: ys).foldl min a = ys.foldl min (min a x) := rfl
      _ ≤ min a x := foldl_min_le_init ys (min a x)
      _ ≤ x := min_le_right a x
    · exact ih (min a y) x hmem

theorem listMin_le : ∀ (l : List ℚ) (x : ℚ), x ∈ l → listMin l ≤ x := by
  intro l x hx
  match l, hx with
  | y :: ys, hx =>
    rcases List.mem_cons.mp hx with rfl | hmem
    · exact foldl_min_le_init ys x
    · exact foldl_min_le_mem ys y x hmem

theorem le_foldl_max_init : ∀ (xs : List ℚ) (a : ℚ), a ≤ xs.foldl max a := by
  intro xs
  induction xs with
  | nil => intro a; exact le_refl a
  | cons x xs ih =>
    intro a
    calc a ≤ max a x := le_max_left a x
    _ ≤ xs.foldl max (max a x) := ih (max a x)
    _ = (x :: xs).foldl max a := rfl

theorem le_foldl_max_mem :
    ∀ (xs : List ℚ) (a x : ℚ), x ∈ xs → x ≤ xs.foldl max a := by
  intro xs
  induction xs with
  | nil => intro a x hx; exact absurd hx (List.not_mem_nil x)
  | cons y ys ih =>
    intro a x hx
    rcases List.mem_cons.mp hx with rfl | hmem
    · calc x ≤ max a x := le_max_right a x
      _ ≤ ys.foldl max (max a x) := le_foldl_max_init ys (max a x)
    · exact ih (max a y) x hmem

theorem le_listMax : ∀ (l : List ℚ) (x : ℚ), x ∈ l → x ≤ listMax l := by
  intro l x hx
  match l, hx with
  | y :: ys, hx =>
    rcases List.mem_cons.mp hx with rfl | hmem
    · exact le_foldl_max_init ys x
    · exact le_foldl_max_mem ys y x hmem

theorem foldl_max_mem_or :
    ∀ (xs : List ℚ) (a : ℚ), xs.foldl max a = a ∨ xs.foldl max a ∈ xs := by
  intro xs
  induction xs with
  | nil => intro a; exact Or.inl rfl
  | cons x xs ih =>
    intro a
    rcases ih (max a x) with h | h
    · rcases max_choice a x with hc | hc
      · left
        calc (x :: xs).foldl max a = xs.foldl max (max a x) := rfl
        _ = max a x := h
        _ = a := hc
      · right
        have hx : (x :: xs).foldl max a = x := by
          calc (x :: xs).foldl max a = xs.foldl max (max a x) := rfl
          _ = max a x := h
          _ = x := hc
        rw [hx]; exact List.mem_cons_self x xs
    · right
      exact List.mem_cons_of_mem x h

theorem foldl_min_mem_or :
    ∀ (xs : List ℚ) (a : ℚ), xs.foldl min a = a ∨ xs.foldl min a ∈ xs := by
  intro xs
  induction xs with
  | nil => intro a; exact Or.inl rfl
  | cons x xs ih =>
    intro a
    rcases ih (min a x) with h | h
    · rcases min_choice a x with hc | hc
      · left
        calc (x :: xs).foldl min a = xs.foldl min (min a x) := rfl
        _ = min a x := h
        _ = a := hc
      · right
        have : (x :: xs).foldl min a = x := by
          calc (x :: xs).foldl min a = xs.foldl min (min a x) := rfl
          _ = min a x := h
          _ = x := hc
        rw [this]; exact List.mem_cons_self x xs
    · right
      exact List.mem_cons_of_mem x h

theorem listMax_mem : ∀ (l : List ℚ), l ≠ [] → listMax l ∈ l := by
  intro l hl
  match l with
  | x :: xs =>
    rcases foldl_max_mem_or xs x with h | h
    · rw [listMax, h]; exact List.mem_cons_self x xs
    · rw [listMax]; exact List.mem_cons_of_mem x h

theorem listMin_mem : ∀ (l : List ℚ), l ≠ [] → listMin l ∈ l := by
  intro l hl
  match l with
  | x :: xs =>
    rcases foldl_min_mem_or xs x with h | h
    · rw [listMin, h]; exact List.mem_cons_self x xs
    · rw [listMin]; exact List.mem_cons_of_mem x h

theorem listMax_le :
    ∀ (l : List ℚ) (c : ℚ), l ≠ [] → (∀ x ∈ l, x ≤ c) → listMax l ≤ c := by
  intro l c hl h
  exact h (listMax l) (listMax_mem l hl)

theorem foldl_max_map_sub :
    ∀ (xs : List ℚ) (a c : ℚ),
      (xs.map (fun y => y - c)).foldl max (a - c) = xs.foldl max a - c := by
  intro xs
  induction xs with
  | nil => intro a c; rfl
  | cons y ys ih =>
    intro a c
    calc ((y :: ys).map (fun y => y - c)).foldl max (a - c)
        = (ys.map (fun y => y - c)).foldl max (max (a - c) (y - c)) := rfl
    _ = (ys.map (fun y => y - c)).foldl max (max a y - c) := by
        rw [max_sub_sub_right]
    _ = ys.foldl max (max a y) - c := ih (max a y) c
    _ = (y :: ys).foldl max a - c := rfl

theorem listMax_map_sub :
    ∀ (l : List ℚ) (c : ℚ), l ≠ [] →
      listMax (l.map (fun x => x - c)) = listMax l - c := by
  intro l c hl
  match l with
  | x :: xs =>
    show (xs.map (fun y => y - c)).foldl max (x - c) = xs.foldl max x - c
    exact foldl_max_map_sub xs x c

/-! ## gradcamNormalize lemmas -/

theorem gradcamNormalize_bounds :
    ∀ (l : List ℚ), ∀ v ∈ gradcamNormalize l, 0 ≤ v ∧ v ≤ 1 := by
  intro l v hv
  unfold gradcamNormalize at hv
  by_cases hpos : 0 < listMax (l.map (fun x => x - listMin l))
  · rw [if_pos hpos] at hv
    rcases List.mem_map.mp hv with ⟨s, hs, rfl⟩
    rcases List.mem_map.mp hs with ⟨x, hx, rfl⟩
    have h0 : (0 : ℚ) ≤ x - listMin l := by
      have := listMin_le l x hx
      linarith
    have hle : x - listMin l ≤ listMax (l.map (fun x => x - listMin l)) :=
      le_listMax _ _ (List.mem_map.mpr ⟨x, hx, rfl⟩)
    constructor
    · exact div_nonneg h0 (le_of_lt hpos)
    · exact (div_le_one hpos).mpr hle
  · rw [if_neg hpos] at hv
    rcases List.mem_map.mp hv with ⟨x, hx, rfl⟩
    have h0 : (0 : ℚ) ≤ x - listMin l := by
      have := listMin_le l x hx
      linarith
    have hle : x - listMin l ≤ listMax (l.map (fun x => x - listMin l)) :=
      le_listMax _ _ (List.mem_map.mpr ⟨x, hx, rfl⟩)
    push_neg at hpos
    exact ⟨h0, by linarith⟩

theorem gradcamNormalize_exists_one :
    ∀ (l : List ℚ) (a b : ℚ), a ∈ l → b ∈ l → a ≠ b →
      ∃ v ∈ gradcamNormalize l, v = 1 := by
  intro l a b ha hb hab
  have hl : l ≠ [] := List.ne_nil_of_mem ha
  have hlt : listMin l < listMax l := by
    rcases Ne.lt_or_lt hab with h | h
    · calc listMin l ≤ a := listMin_le l a ha
      _ < b := h
      _ ≤ listMax l := le_listMax l b hb
    · calc listMin l ≤ b := listMin_le l b hb
      _ < a := h
      _ ≤ listMax l := le_listMax l a ha
  have hM : listMax (l.map (fun x => x - listMin l)) = listMax l - listMin l :=
    listMax_map_sub l (listMin l) hl
  have hpos : 0 < listMax (l.map (fun x => x - listMin l)) := by
    rw [hM]; linarith
  refine ⟨(listMax l - listMin l) / listMax (l.map (fun x => x - listMin l)),
    ?_, ?_⟩
  · unfold gradcamNormalize
    rw [if_pos hpos]
    exact List.mem_map.mpr
      ⟨listMax l - listMin l,
       List.mem_map.mpr ⟨listMax l, listMax_mem l hl, rfl⟩, rfl⟩
  · rw [hM]
    exact div_self (by linarith)

theorem gradcamNormalize_const :
    ∀ (l : List ℚ), (∀ a ∈ l, ∀ b ∈ l, a = b) →
      ∀ v ∈ gradcamNormalize l, v = 0 := by
  intro l hconst v hv
  match l with
  | [] => simp [gradcamNormalize] at hv
  | x :: xs =>
    have hl : x :: xs ≠ [] := List.cons_ne_nil x xs
    have hmin : listMin (x :: xs) ∈ x :: xs := listMin_mem _ hl
    have hzero : ∀ s ∈ (x :: xs).map (fun y => y - listMin (x :: xs)), s = 0 := by
      intro s hs
      rcases List.mem_map.mp hs with ⟨y, hy, rfl⟩
      have := hconst y hy (listMin (x :: xs)) hmin
      linarith [this.ge, this.le]
    have hMle : listMax ((x :: xs).map (fun y => y - listMin (x :: xs))) ≤ 0 :=
      listMax_le _ 0 (by simp) (fun s hs => le_of_eq (hzero s hs))
    unfold gradcamNormalize at hv
    rw [if_neg (by linarith)] at hv
    exact hzero v hv

/-! ## dotQ lemmas -/

theorem dotQ_nonneg :
    ∀ (row l : List ℚ), (∀ w ∈ row, 0 ≤ w) → (∀ x ∈ l, 0 ≤ x) →
      0 ≤ dotQ row l := by
  intro row
  induction row with
  | nil => intro l _ _; exact le_refl 0
  | cons a as ih =>
    intro l hw hx
    match l with
    | [] => exact le_refl 0
    | b :: bs =>
      have h1 : 0 ≤ a * b :=
        mul_nonneg (hw a (List.mem_cons_self a as)) (hx b (List.mem_cons_self b bs))
      have h2 : 0 ≤ dotQ as bs :=
        ih bs (fun w hwm => hw w (List.mem_cons_of_mem a hwm))
          (fun x hxm => hx x (List.mem_cons_of_mem b hxm))
      show 0 ≤ a * b + dotQ as bs
      linarith

theorem dotQ_le_sum_mul :
    ∀ (row l : List ℚ) (b : ℚ), (∀ w ∈ row, 0 ≤ w) → (∀ x ∈ l, x ≤ b) →
      row.length = l.length → dotQ row l ≤ row.sum * b := by
  intro row
  induction row with
  | nil =>
    intro l b _ _ hlen
    simp [dotQ]
  | cons a as ih =>
    intro l b hw hx hlen
    match l with
    | [] => simp at hlen
    | y :: ys =>
      have h1 : a * y ≤ a * b :=
        mul_le_mul_of_nonneg_left (hx y (List.mem_cons_self y ys))
          (hw a (List.mem_cons_self a as))
      have h2 : dotQ as ys ≤ as.sum * b :=
        ih ys b (fun w hwm => hw w (List.mem_cons_of_mem a hwm))
          (fun x hxm => hx x (List.mem_cons_of_mem y hxm))
          (by simpa using hlen)
      show a * y + dotQ as ys ≤ (a :: as).sum * b
      have : (a :: as).sum * b = a * b + as.sum * b := by
        simp [List.sum_cons]; ring
      rw [this]
      linarith

theorem dotQ_eq_zero :
    ∀ (row l : List ℚ), (∀ x ∈ l, x = 0) → dotQ row l = 0 := by
  intro row
  induction row with
  | nil => intro l _; rfl
  | cons a as ih =>
    intro l hx
    match l with
    | [] => rfl
    | y :: ys =>
      have hy : y = 0 := hx y (List.mem_cons_self y ys)
      have h2 : dotQ as ys = 0 :=
        ih ys (fun x hxm => hx x (List.mem_cons_of_mem y hxm))
      show a * y + dotQ as ys = 0
      rw [hy, h2, mul_zero, add_zero]

theorem length_reluMap (l : List ℚ) : (reluMap l).length = l.length :=
  List.length_map l _

theorem length_gradcamNormalize (l : List ℚ) :
    (gradcamNormalize l).length = l.length := by
  unfold gradcamNormalize
  by_cases hpos : 0 < listMax (l.map (fun x => x - listMin l))
  · rw [if_pos hpos]; simp
  · rw [if_neg hpos]; simp

/-! ## C3 -/

/-- C3 counterexample.  The claim says the heatmap contains an entry exactly
equal to 1 unless the raw weighted activation map was uniformly zero.  Take a
single conv5 channel whose captured gradient is uniformly 4 and whose
activation is uniformly 1: the raw weighted map is the constant map
[4, 4, 4, 4] — not uniformly zero — yet after subtracting the minimum the map
is all-zero, the guarded division is skipped, and the returned heatmap
(here resampled by the identity convex-weight operator) is all zeros, with no
entry equal to 1. -/
theorem C3_counterexample :
    (∃ x ∈ weightedCam [[4, 4, 4, 4]] [[1, 1, 1, 1]] 4, x ≠ 0) ∧
      ∀ v ∈ compute_gradcam_heatmap
          [[1, 0, 0, 0], [0, 1, 0, 0], [0, 0, 1, 0], [0, 0, 0, 1]]
          (weightedCam [[4, 4, 4, 4]] [[1, 1, 1, 1]] 4), v ≠ 1 := by
  have hraw : weightedCam [[4, 4, 4, 4]] [[1, 1, 1, 1]] 4 = [4, 4, 4, 4] := by
    norm_num [weightedCam, zipAdd, spatialMean, List.replicate]
  rw [hraw]
  constructor
  · exact ⟨4, by norm_num⟩
  · have hrelu : reluMap [4, 4, 4, 4] = [4, 4, 4, 4] := by
      norm_num [reluMap]
    have hnorm : gradcamNormalize [4, 4, 4, 4] = [0, 0, 0, 0] := by
      norm_num [gradcamNormalize, listMin, listMax]
    have happ : compute_gradcam_heatmap
        [[1, 0, 0, 0], [0, 1, 0, 0], [0, 0, 1, 0], [0, 0, 0, 1]]
        [4, 4, 4, 4] = [0, 0, 0, 0] := by
      unfold compute_gradcam_heatmap
      rw [hrelu, hnorm]
      norm_num [applyWeights, dotQ]
    rw [happ]
    intro v hv
    fin_cases hv <;> norm_num

/-- C3 amended: for every raw weighted activation map (every value of
`weightedCam`, hence every input image) and every convex resampling operator
(which bilinear interpolation is), all heatmap values lie in [0, 1]; the
normalized map before resampling contains an entry exactly 1 unless the
ReLU-clamped map is constant; and whenever the ReLU-clamped map is constant —
in particular whenever the raw map is uniformly zero — every entry of the
returned heatmap is 0. -/
theorem C3_theorem :
    ∀ (cam : List ℚ) (W : List (List ℚ)),
      cam ≠ [] → ConvexWeights W cam.length →
      (∀ v ∈ compute_gradcam_heatmap W cam, 0 ≤ v ∧ v ≤ 1) ∧
      ((∃ a ∈ reluMap cam, ∃ b ∈ reluMap cam, a ≠ b) →
        ∃ v ∈ gradcamNormalize (reluMap cam), v = 1) ∧
      ((∀ a ∈ reluMap cam, ∀ b ∈ reluMap cam, a = b) →
        ∀ v ∈ compute_gradcam_heatmap W cam, v = 0) := by
  intro cam W hne hW
  have hlen : (gradcamNormalize (reluMap cam)).length = cam.length := by
    rw [length_gradcamNormalize, length_reluMap]
  refine ⟨?_, ?_, ?_⟩
  · intro v hv
    rcases List.mem_map.mp hv with ⟨row, hrow, rfl⟩
    obtain ⟨hw0, hwlen, hwsum⟩ := hW row hrow
    constructor
    · exact dotQ_nonneg row _ hw0
        (fun x hx => (gradcamNormalize_bounds _ x hx).1)
    · have := dotQ_le_sum_mul row (gradcamNormalize (reluMap cam)) 1 hw0
        (fun x hx => (gradcamNormalize_bounds _ x hx).2)
        (by rw [hwlen, hlen])
      rw [hwsum, one_mul] at this
      exact this
  · intro ⟨a, ha, b, hb, hab⟩
    exact gradcamNormalize_exists_one _ a b ha hb hab
  · intro hconst v hv
    rcases List.mem_map.mp hv with ⟨row, hrow, rfl⟩
    exact dotQ_eq_zero row _ (gradcamNormalize_const _ hconst)

theorem convexWeights_id2 : ConvexWeights [[1, 0], [0, 1]] 2 := by
  intro row hrow
  fin_cases hrow
  · exact ⟨by intro w hw; fin_cases hw <;> norm_num, by simp, by simp⟩
  · exact ⟨by intro w hw; fin_cases hw <;> norm_num, by simp, by simp⟩

theorem C3_witness :
    (([(0 : ℚ), 1] : List ℚ) ≠ [] ∧ ConvexWeights [[1, 0], [0, 1]] 2) ∧
      ∀ v ∈ compute_gradcam_heatmap [[1, 0], [0, 1]] [(0 : ℚ), 1],
        0 ≤ v ∧ v ≤ 1 :=
  ⟨⟨by decide, convexWeights_id2⟩,
   (C3_theorem [(0 : ℚ), 1] [[1, 0], [0, 1]] (by decide) convexWeights_id2).1⟩

/-! ## C9 -/

/-- C9: `tensor_to_image` with normalization enabled never divides by zero —
the division is guarded by the positivity of the maximum after subtracting
the minimum, so the checked division site always succeeds — and a constant
(uniform) input map yields a uniform (all-zero) output. -/
theorem C9_theorem :
    ∀ img : List ℚ, img ≠ [] →
      (tensor_to_image img true).isSome = true ∧
      ∀ c : ℚ, (∀ x ∈ img, x = c) →
        tensor_to_image img true = some (List.replicate img.length 0) := by
  intro img hne
  constructor
  · unfold tensor_to_image
    by_cases hpos : 0 < listMax (img.map (fun x => x - listMin img))
    · rw [if_pos rfl, if_pos hpos, if_neg (ne_of_gt hpos)]
      rfl
    · rw [if_pos rfl, if_neg hpos]
      rfl
  · intro c hconst
    have hmin : listMin img ∈ img := listMin_mem img hne
    have hzero : ∀ s ∈ img.map (fun x => x - listMin img), s = 0 := by
      intro s hs
      rcases List.mem_map.mp hs with ⟨x, hx, rfl⟩
      have h1 : x = c := hconst x hx
      have h2 : listMin img = c := hconst _ hmin
      rw [h1, h2, sub_self]
    have hMle : listMax (img.map (fun x => x - listMin img)) ≤ 0 :=
      listMax_le _ 0 (by simpa using hne) (fun s hs => le_of_eq (hzero s hs))
    unfold tensor_to_image
    rw [if_pos rfl, if_neg (by linarith)]
    congr 1
    rw [List.eq_replicate_iff]
    constructor
    · simp
    · intro b hb
      rcases List.mem_map.mp hb with ⟨s, hs, rfl⟩
      rw [hzero s hs, zero_mul]
      exact Int.floor_zero

theorem C9_witness :
    (([(3 : ℚ), 3] : List ℚ) ≠ []) ∧
      tensor_to_image [(3 : ℚ), 3] true =
        some (List.replicate ([(3 : ℚ), 3] : List ℚ).length 0) :=
  ⟨by decide,
   (C9_theorem [(3 : ℚ), 3] (by decide)).2 3 (by decide)⟩

/-! ## C8 -/

/-- C8: `resize_image_for_preview` scales down only: the output dimensions
never exceed the input dimensions nor `max_size`; an image already within
bounds is returned unchanged; and when shrinking is needed, both dimensions
are scaled by the single ratio `min(max_size/w, max_size/h)` (the larger
required shrink), which is then below 1.  In particular 1000×500 at
max 400 becomes 400×200 and 100×50 at max 400 is unchanged. -/
theorem C8_theorem :
    resize_image_for_preview 1000 500 400 = (400, 200) ∧
    resize_image_for_preview 100 50 400 = (100, 50) ∧
    ∀ w h m : Nat, 0 < w → 0 < h →
      ((resize_image_for_preview w h m).1 ≤ w ∧
        (resize_image_for_preview w h m).2 ≤ h) ∧
      ((resize_image_for_preview w h m).1 ≤ m ∧
        (resize_image_for_preview w h m).2 ≤ m) ∧
      (w ≤ m ∧ h ≤ m → resize_image_for_preview w h m = (w, h)) ∧
      (¬(w ≤ m ∧ h ≤ m) →
        min ((m : ℚ) / (w : ℚ)) ((m : ℚ) / (h : ℚ)) < 1 ∧
        resize_image_for_preview w h m =
          ((Int.floor ((w : ℚ) * min ((m : ℚ) / (w : ℚ)) ((m : ℚ) / (h : ℚ)))).toNat,
           (Int.floor ((h : ℚ) * min ((m : ℚ) / (w : ℚ)) ((m : ℚ) / (h : ℚ)))).toNat)) := by
  refine ⟨?_, ?_, ?_⟩
  · show resize_image_for_preview 1000 500 400 = (400, 200)
    unfold resize_image_for_preview
    have hmin : min ((400 : ℚ) / (1000 : ℕ)) ((400 : ℚ) / (500 : ℕ)) = 2 / 5 := by
      push_cast
      norm_num
    norm_num [hmin]
    exact ⟨rfl, rfl⟩
  · show resize_image_for_preview 100 50 400 = (100, 50)
    unfold resize_image_for_preview
    have hmin : min ((400 : ℚ) / (100 : ℕ)) ((400 : ℚ) / (50 : ℕ)) = 4 := by
      push_cast
      norm_num
    norm_num [hmin]
  · intro w h m hw hh
    have hw' : (0 : ℚ) < (w : ℚ) := by exact_mod_cast hw
    have hh' : (0 : ℚ) < (h : ℚ) := by exact_mod_cast hh
    by_cases hr : min ((m : ℚ) / (w : ℚ)) ((m : ℚ) / (h : ℚ)) < 1
    · have hres : resize_image_for_preview w h m =
          ((Int.floor ((w : ℚ) * min ((m : ℚ) / (w : ℚ)) ((m : ℚ) / (h : ℚ)))).toNat,
           (Int.floor ((h : ℚ) * min ((m : ℚ) / (w : ℚ)) ((m : ℚ) / (h : ℚ)))).toNat) := by
        unfold resize_image_for_preview
        rw [if_pos hr]
      have hr0 : 0 ≤ min ((m : ℚ) / (w : ℚ)) ((m : ℚ) / (h : ℚ)) :=
        le_min (div_nonneg (Nat.cast_nonneg m) (le_of_lt hw'))
          (div_nonneg (Nat.cast_nonneg m) (le_of_lt hh'))
      have hwle : (Int.floor ((w : ℚ) * min ((m : ℚ) / (w : ℚ)) ((m : ℚ) / (h : ℚ)))).toNat ≤ w := by
        rw [Int.toNat_le]
        have h1 : (w : ℚ) * min ((m : ℚ) / (w : ℚ)) ((m : ℚ) / (h : ℚ)) ≤ (w : ℚ) :=
          mul_le_of_le_one_right (le_of_lt hw') (le_of_lt hr)
        have := Int.floor_le_floor h1
        rwa [Int.floor_natCast] at this
      have hhle : (Int.floor ((h : ℚ) * min ((m : ℚ) / (w : ℚ)) ((m : ℚ) / (h : ℚ)))).toNat ≤ h := by
        rw [Int.toNat_le]
        have h1 : (h : ℚ) * min ((m : ℚ) / (w : ℚ)) ((m : ℚ) / (h : ℚ)) ≤ (h : ℚ) :=
          mul_le_of_le_one_right (le_of_lt hh') (le_of_lt hr)
        have := Int.floor_le_floor h1
        rwa [Int.floor_natCast] at this
      have hwm : (Int.floor ((w : ℚ) * min ((m : ℚ) / (w : ℚ)) ((m : ℚ) / (h : ℚ)))).toNat ≤ m := by
        rw [Int.toNat_le]
        have h1 : (w : ℚ) * min ((m : ℚ) / (w : ℚ)) ((m : ℚ) / (h : ℚ)) ≤ (m : ℚ) := by
          have h2 : (w : ℚ) * min ((m : ℚ) / (w : ℚ)) ((m : ℚ) / (h : ℚ)) ≤
              (w : ℚ) * ((m : ℚ) / (w : ℚ)) :=
            mul_le_mul_of_nonneg_left (min_le_left _ _) (le_of_lt hw')
          have h3 : (w : ℚ) * ((m : ℚ) / (w : ℚ)) = (m : ℚ) := by
            rw [mul_comm, div_mul_cancel₀ _ (ne_of_gt hw')]
          linarith
        have := Int.floor_le_floor h1
        rwa [Int.floor_natCast] at this
      have hhm : (Int.floor ((h : ℚ) * min ((m : ℚ) / (w : ℚ)) ((m : ℚ) / (h : ℚ)))).toNat ≤ m := by
        rw [Int.toNat_le]
        have h1 : (h : ℚ) * min ((m : ℚ) / (w : ℚ)) ((m : ℚ) / (h : ℚ)) ≤ (m : ℚ) := by
          have h2 : (h : ℚ) * min ((m : ℚ) / (w : ℚ)) ((m : ℚ) / (h : ℚ)) ≤
              (h : ℚ) * ((m : ℚ) / (h : ℚ)) :=
            mul_le_mul_of_nonneg_left (min_le_right _ _) (le_of_lt hh')
          have h3 : (h : ℚ) * ((m : ℚ) / (h : ℚ)) = (m : ℚ) := by
            rw [mul_comm, div_mul_cancel₀ _ (ne_of_gt hh')]
          linarith
        have := Int.floor_le_floor h1
        rwa [Int.floor_natCast] at this
      refine ⟨⟨?_, ?_⟩, ⟨?_, ?_⟩, ?_, fun _ => ⟨hr, hres⟩⟩
      · rw [hres]; exact hwle
      · rw [hres]; exact hhle
      · rw [hres]; exact hwm
      · rw [hres]; exact hhm
      · rintro ⟨h1, h2⟩
        exfalso
        have hge : 1 ≤ min ((m : ℚ) / (w : ℚ)) ((m : ℚ) / (h : ℚ)) :=
          le_min ((one_le_div hw').mpr (by exact_mod_cast h1))
            ((one_le_div hh').mpr (by exact_mod_cast h2))
        exact absurd hr (not_lt.mpr hge)
    · have hres : resize_image_for_preview w h m = (w, h) := by
        unfold resize_image_for_preview
        rw [if_neg hr]
      have hge : 1 ≤ min ((m : ℚ) / (w : ℚ)) ((m : ℚ) / (h : ℚ)) := not_lt.mp hr
      have hwm : w ≤ m := by
        have h1 : 1 ≤ (m : ℚ) / (w : ℚ) := le_trans hge (min_le_left _ _)
        have := (one_le_div hw').mp h1
        exact_mod_cast this
      have hhm : h ≤ m := by
        have h1 : 1 ≤ (m : ℚ) / (h : ℚ) := le_trans hge (min_le_right _ _)
        have := (one_le_div hh').mp h1
        exact_mod_cast this
      refine ⟨⟨?_, ?_⟩, ⟨?_, ?_⟩, fun _ => hres, fun hnw => absurd ⟨hwm, hhm⟩ hnw⟩
      · rw [hres]
      · rw [hres]
      · rw [hres]; exact hwm
      · rw [hres]; exact hhm

theorem C8_witness :
    (0 < 800 ∧ 0 < 600) ∧
      ((resize_image_for_preview 800 600 400).1 ≤ 400 ∧
        (resize_image_for_preview 800 600 400).2 ≤ 400) :=
  ⟨⟨by decide, by decide⟩,
   (C8_theorem.2.2 800 600 400 (by decide) (by decide)).2.1⟩

/-! ## topk and softmax lemmas -/

theorem topkLe_iff (a b : Nat × ℚ) :
    topkLe a b = true ↔ (b.2 < a.2 ∨ (a.2 = b.2 ∧ a.1 ≤ b.1)) := by
  simp [topkLe]

theorem topkLe_trans :
    ∀ a b c : Nat × ℚ, topkLe a b = true → topkLe b c = true →
      topkLe a c = true := by
  intro a b c hab hbc
  rw [topkLe_iff] at hab hbc ⊢
  rcases hab with h1 | ⟨h1, h1i⟩ <;> rcases hbc with h2 | ⟨h2, h2i⟩
  · exact Or.inl (lt_trans h2 h1)
  · exact Or.inl (h2 ▸ h1)
  · exact Or.inl (by rw [h1]; exact h2)
  · exact Or.inr ⟨h1.trans h2, le_trans h1i h2i⟩

theorem topkLe_total :
    ∀ a b : Nat × ℚ, (topkLe a b || topkLe b a) = true := by
  intro a b
  rw [Bool.or_eq_true, topkLe_iff, topkLe_iff]
  rcases lt_trichotomy a.2 b.2 with h | h | h
  · exact Or.inr (Or.inl h)
  · rcases Nat.le_total a.1 b.1 with hi | hi
    · exact Or.inl (Or.inr ⟨h, hi⟩)
    · exact Or.inr (Or.inr ⟨h.symm, hi⟩)
  · exact Or.inl (Or.inl h)

theorem topk_sorted (k : Nat) (probs : List ℚ) :
    List.Pairwise (fun a b : Nat × ℚ => topkLe a b = true) (topk k probs) :=
  List.Pairwise.sublist (List.take_sublist k _)
    (List.sorted_mergeSort topkLe_trans topkLe_total probs.enum)

theorem topk_pairwise_fst_ne (k : Nat) (probs : List ℚ) :
    List.Pairwise (fun a b : Nat × ℚ => a.1 ≠ b.1) (topk k probs) := by
  have hperm : ((probs.enum.mergeSort topkLe).map Prod.fst).Perm
      (probs.enum.map Prod.fst) :=
    List.Perm.map Prod.fst (List.mergeSort_perm probs.enum topkLe)
  have hnodup : ((probs.enum.mergeSort topkLe).map Prod.fst).Nodup :=
    hperm.nodup_iff.mpr (List.nodup_enum_map_fst probs)
  have hpw : List.Pairwise (fun a b : Nat × ℚ => a.1 ≠ b.1)
      (probs.enum.mergeSort topkLe) := List.pairwise_map.mp hnodup
  exact List.Pairwise.sublist (List.take_sublist k _) hpw

theorem topk_sorted_strict (k : Nat) (probs : List ℚ) :
    List.Pairwise (fun a b : Nat × ℚ => b.2 < a.2 ∨ (a.2 = b.2 ∧ a.1 < b.1))
      (topk k probs) := by
  have hand := (topk_sorted k probs).and (topk_pairwise_fst_ne k probs)
  refine hand.imp ?_
  intro a b ⟨hle, hne⟩
  rw [topkLe_iff] at hle
  rcases hle with h | ⟨heq, hle'⟩
  · exact Or.inl h
  · exact Or.inr ⟨heq, lt_of_le_of_ne hle' hne⟩

theorem topk_snd_mem (k : Nat) (probs : List ℚ) :
    ∀ p ∈ topk k probs, p.2 ∈ probs := by
  intro p hp
  have h1 : p ∈ probs.enum.mergeSort topkLe := List.mem_of_mem_take hp
  have h2 : p ∈ probs.enum := List.mem_mergeSort.mp h1
  have h3 : p.2 ∈ probs.enum.map Prod.snd := List.mem_map_of_mem Prod.snd h2
  rwa [List.enum_map_snd] at h3

theorem softmax_length (expf : ℚ → ℚ) (logits : List ℚ) :
    (softmax expf logits).length = logits.length :=
  List.length_map logits _

theorem softmax_sum_exp_pos (expf : ℚ → ℚ) (logits : List ℚ)
    (hpos : ∀ z, 0 < expf z) (hne : logits ≠ []) :
    0 < (logits.map expf).sum := by
  apply List.sum_pos
  · intro x hx
    rcases List.mem_map.mp hx with ⟨z, _, rfl⟩
    exact hpos z
  · simpa using hne

theorem softmax_mem_bounds (expf : ℚ → ℚ) (logits : List ℚ)
    (hpos : ∀ z, 0 < expf z) (hne : logits ≠ []) :
    ∀ p ∈ softmax expf logits, 0 ≤ p ∧ p ≤ 1 := by
  intro p hp
  rcases List.mem_map.mp hp with ⟨z, hz, rfl⟩
  have hS : 0 < (logits.map expf).sum := softmax_sum_exp_pos expf logits hpos hne
  constructor
  · exact div_nonneg (le_of_lt (hpos z)) (le_of_lt hS)
  · rw [div_le_one hS]
    exact List.single_le_sum
      (fun x hx => by
        rcases List.mem_map.mp hx with ⟨y, _, rfl⟩
        exact le_of_lt (hpos y))
      (expf z) (List.mem_map_of_mem expf hz)

theorem softmax_sum_one (expf : ℚ → ℚ) (logits : List ℚ)
    (hpos : ∀ z, 0 < expf z) (hne : logits ≠ []) :
    (softmax expf logits).sum = 1 := by
  have hS : 0 < (logits.map expf).sum := softmax_sum_exp_pos expf logits hpos hne
  unfold softmax
  have hfun : (fun z => expf z / (logits.map expf).sum) =
      fun z => expf z * ((logits.map expf).sum)⁻¹ := by
    funext z
    rw [div_eq_mul_inv]
  rw [hfun, List.sum_map_mul_right, mul_inv_cancel₀ (ne_of_gt hS)]

/-! ## C4 -/

/-- C4: for every logit vector the opaque network can produce (and any
strictly positive exponential, which the library's is), `predict` returns
exactly 5 (label, probability) pairs in descending probability order with
each probability in [0, 1]; the full 1000-class softmax distribution sums to
exactly 1; and the selected top-5 index/probability pairs are strictly
ordered: descending probability, ties broken by ascending native output
index. -/
theorem C4_theorem :
    ∀ (expf : ℚ → ℚ) (labels : List String) (logits : List ℚ),
      (∀ z, 0 < expf z) → logits.length = 1000 →
      (predict expf labels logits).2.1.length = 5 ∧
      List.Pairwise (fun a b : String × ℚ => b.2 ≤ a.2)
        (predict expf labels logits).2.1 ∧
      (∀ p ∈ (predict expf labels logits).2.1, 0 ≤ p.2 ∧ p.2 ≤ 1) ∧
      (softmax expf logits).sum = 1 ∧
      List.Pairwise (fun a b : Nat × ℚ => b.2 < a.2 ∨ (a.2 = b.2 ∧ a.1 < b.1))
        (topk 5 (softmax expf logits)) := by
  intro expf labels logits hpos hlen
  have hne : logits ≠ [] := by
    intro hcon
    rw [hcon] at hlen
    simp at hlen
  have hpred : (predict expf labels logits).2.1 =
      (topk 5 (softmax expf logits)).map
        (fun p => (labels.getD p.1 (""), p.2)) := rfl
  refine ⟨?_, ?_, ?_, softmax_sum_one expf logits hpos hne,
    topk_sorted_strict 5 (softmax expf logits)⟩
  · rw [hpred, List.length_map]
    unfold topk
    rw [List.length_take, List.length_mergeSort, List.enum_length,
      softmax_length, hlen]
    decide
  · rw [hpred]
    apply List.pairwise_map.mpr
    refine (topk_sorted 5 (softmax expf logits)).imp ?_
    intro a b hle
    rw [topkLe_iff] at hle
    rcases hle with h | ⟨h, _⟩
    · exact le_of_lt h
    · exact le_of_eq h.symm
  · rw [hpred]
    intro p hp
    rcases List.mem_map.mp hp with ⟨q, hq, rfl⟩
    exact softmax_mem_bounds expf logits hpos hne q.2
      (topk_snd_mem 5 (softmax expf logits) q hq)

theorem C4_witness :
    ((∀ _z : ℚ, (0 : ℚ) < 1) ∧ (List.replicate 1000 (0 : ℚ)).length = 1000) ∧
      (softmax (fun _ => (1 : ℚ)) (List.replicate 1000 0)).sum = 1 :=
  ⟨⟨fun _ => one_pos, List.length_replicate 1000 0⟩,
   (C4_theorem (fun _ => (1 : ℚ)) [] (List.replicate 1000 0)
     (fun _ => one_pos) (List.length_replicate 1000 0)).2.2.2.1⟩

/-! ## C10 -/

/-- C10: the single top-1 label returned by `predict` is always the label of
the first pair of the returned top-5 list — the two components of the return
value are mutually consistent, because `best_class` is looked up at
`top5_idx[0]`, the index of the first top-5 entry. -/
theorem C10_theorem :
    ∀ (expf : ℚ → ℚ) (labels : List String) (logits : List ℚ),
      logits ≠ [] →
      (predict expf labels logits).1 =
        ((predict expf labels logits).2.1.headD (("", 0))).1 := by
  intro expf labels logits hne
  have hlen : 0 < (softmax expf logits).length := by
    rw [softmax_length]
    exact List.length_pos.mpr hne
  have htop_ne : topk 5 (softmax expf logits) ≠ [] := by
    apply List.ne_nil_of_length_pos
    unfold topk
    rw [List.length_take, List.length_mergeSort, List.enum_length]
    omega
  obtain ⟨p, t, ht⟩ := List.exists_cons_of_ne_nil htop_ne
  have h1 : (predict expf labels logits).1 =
      labels.getD ((topk 5 (softmax expf logits)).headD (0, 0)).1 ("") := rfl
  have h2 : (predict expf labels logits).2.1 =
      (topk 5 (softmax expf logits)).map
        (fun p => (labels.getD p.1 (""), p.2)) := rfl
  rw [h1, h2, ht]
  simp

theorem C10_witness :
    (([(0 : ℚ)] : List ℚ) ≠ []) ∧
      (predict (fun _ => (1 : ℚ)) [("cat")] [(0 : ℚ)]).1 =
        ((predict (fun _ => (1 : ℚ)) [("cat")] [(0 : ℚ)]).2.1.headD (("", 0))).1 :=
  ⟨by decide,
   C10_theorem (fun _ => (1 : ℚ)) [("cat")] [(0 : ℚ)] (by decide)⟩

/-! ## base64 lemmas -/

theorem sextetsToBytes_bytesToSextets :
    ∀ (l : List Nat), (∀ b ∈ l, b < 256) →
      sextetsToBytes (bytesToSextets l) = l
  | [] => fun _ => rfl
  | [a] => fun h => by
      have ha : a < 256 := h a (by simp)
      simp only [bytesToSextets, sextetsToBytes, List.cons.injEq, and_true]
      omega
  | [a, b] => fun h => by
      have ha : a < 256 := h a (by simp)
      have hb : b < 256 := h b (by simp)
      simp only [bytesToSextets, sextetsToBytes, List.cons.injEq, and_true]
      omega
  | a :: b :: c :: rest => fun h => by
      have ha : a < 256 := h a (by simp)
      have hb : b < 256 := h b (by simp)
      have hc : c < 256 := h c (by simp)
      have ih := sextetsToBytes_bytesToSextets rest
        (fun x hx => h x (by simp [hx]))
      simp only [bytesToSextets, sextetsToBytes, List.cons.injEq]
      exact ⟨by omega, by omega, by omega, ih⟩

theorem bytesToSextets_lt64 :
    ∀ (l : List Nat), (∀ b ∈ l, b < 256) → ∀ s ∈ bytesToSextets l, s < 64
  | [] => fun _ s hs => by simp [bytesToSextets] at hs
  | [a] => fun h s hs => by
      have ha : a < 256 := h a (by simp)
      simp only [bytesToSextets, List.mem_cons, List.not_mem_nil, or_false] at hs
      rcases hs with rfl | rfl <;> omega
  | [a, b] => fun h s hs => by
      have ha : a < 256 := h a (by simp)
      have hb : b < 256 := h b (by simp)
      simp only [bytesToSextets, List.mem_cons, List.not_mem_nil, or_false] at hs
      rcases hs with rfl | rfl | rfl <;> omega
  | a :: b :: c :: rest => fun h s hs => by
      have ha : a < 256 := h a (by simp)
      have hb : b < 256 := h b (by simp)
      have hc : c < 256 := h c (by simp)
      have ih := bytesToSextets_lt64 rest (fun x hx => h x (by simp [hx]))
      simp only [bytesToSextets, List.mem_cons] at hs
      rcases hs with rfl | rfl | rfl | rfl | hs
      · omega
      · omega
      · omega
      · omega
      · exact ih s hs

theorem b64Index_b64Char_fin : ∀ i : Fin 64, b64Index (b64Char i.val) = i.val := by
  decide

theorem b64Char_ne_pad_fin : ∀ i : Fin 64, b64Char i.val ≠ '=' := by
  decide

theorem b64Char_ne_comma_fin : ∀ i : Fin 64, b64Char i.val ≠ ',' := by
  decide

theorem b64Alphabet_length : b64Alphabet.length = 64 := by
  decide

theorem b64Char_ne_comma : ∀ i : Nat, b64Char i ≠ ',' := by
  intro i
  by_cases h : i < 64
  · exact b64Char_ne_comma_fin ⟨i, h⟩
  · have hd : b64Char i = '=' := by
      unfold b64Char
      apply List.getD_eq_default
      rw [b64Alphabet_length]
      omega
    rw [hd]
    decide

theorem filter_ne_pad_replicate (n : Nat) :
    (List.replicate n '=').filter (fun c => c != '=') = [] := by
  induction n with
  | zero => rfl
  | succ n ih =>
    rw [List.replicate_succ, List.filter_cons]
    simp only [bne_self_eq_false]
    exact ih

theorem map_id_of_forall {α : Type} (f : α → α) :
    ∀ (t : List α), (∀ x ∈ t, f x = x) → t.map f = t := by
  intro t
  induction t with
  | nil => intro _; rfl
  | cons x xs ih =>
    intro h
    rw [List.map_cons, h x (List.mem_cons_self x xs),
      ih (fun y hy => h y (List.mem_cons_of_mem x hy))]

theorem filter_ne_pad_map (s : List Nat) (h : ∀ x ∈ s, x < 64) :
    (s.map b64Char).filter (fun c => c != '=') = s.map b64Char := by
  apply List.filter_eq_self.mpr
  intro c hc
  rcases List.mem_map.mp hc with ⟨x, hx, rfl⟩
  exact bne_iff_ne.mpr (b64Char_ne_pad_fin ⟨x, h x hx⟩)

theorem b64decode_b64encode :
    ∀ l : List Nat, (∀ b ∈ l, b < 256) → b64decode (b64encode l) = l := by
  intro l h
  unfold b64decode b64encode
  rw [List.filter_append, filter_ne_pad_map _ (bytesToSextets_lt64 l h),
    filter_ne_pad_replicate, List.append_nil, List.map_map]
  rw [map_id_of_forall (b64Index ∘ b64Char) (bytesToSextets l)
    (fun s hs => b64Index_b64Char_fin ⟨s, bytesToSextets_lt64 l h s hs⟩)]
  exact sextetsToBytes_bytesToSextets l h

theorem comma_not_mem_b64encode : ∀ l : List Nat, ',' ∉ b64encode l := by
  intro l hc
  unfold b64encode at hc
  rcases List.mem_append.mp hc with h | h
  · rcases List.mem_map.mp h with ⟨x, _, hx⟩
    exact b64Char_ne_comma x hx
  · have := List.eq_of_mem_replicate h
    simp at this

theorem splitOnComma_no_comma :
    ∀ (l : List Char), ',' ∉ l → splitOnComma l = [l] := by
  intro l
  induction l with
  | nil => intro _; rfl
  | cons c rest ih =>
    intro h
    have hc : c ≠ ',' := fun hcc => h (hcc ▸ List.mem_cons_self c rest)
    have hrest : ',' ∉ rest := fun hm => h (List.mem_cons_of_mem c hm)
    simp only [splitOnComma]
    rw [if_neg hc, ih hrest]

theorem splitOnComma_append :
    ∀ (p r : List Char), ',' ∉ p →
      splitOnComma (p ++ ',' :: r) = p :: splitOnComma r := by
  intro p
  induction p with
  | nil =>
    intro r _
    simp only [List.nil_append, splitOnComma, if_pos]
  | cons c p ih =>
    intro r h
    have hc : c ≠ ',' := fun hcc => h (hcc ▸ List.mem_cons_self c p)
    have hp : ',' ∉ p := fun hm => h (List.mem_cons_of_mem c hm)
    simp only [List.cons_append, splitOnComma]
    rw [if_neg hc, List.append_eq, ih r hp]

theorem stripDataURL_no_comma (s : List Char) (h : ',' ∉ s) :
    stripDataURL s = s := by
  unfold stripDataURL
  rw [if_neg h]

theorem stripDataURL_dataURL (pfx payload : List Char)
    (hp : ',' ∉ pfx) (hq : ',' ∉ payload) :
    stripDataURL (pfx ++ ',' :: payload) = payload := by
  unfold stripDataURL
  rw [if_pos (by simp : ',' ∈ pfx ++ ',' :: payload)]
  rw [splitOnComma_append pfx payload hp, splitOnComma_no_comma payload hq]
  rfl

/-! ## C7 -/

/-- C7: for any image and any lossless codec (one whose load inverts its
save, as PNG is), `decode(encode(image))` reproduces the image exactly, both
from the bare base64 text and from a data-URL form with any comma-free
prefix: `base64_to_pil` strips everything up to and including the first
separator and inverts `pil_to_base64` (base64 text never contains the
separator, so the stripping rule is harmless on bare text). -/
theorem C7_theorem :
    ∀ (α : Type) (save : α → List Nat) (load : List Nat → α) (img : α),
      (∀ b ∈ save img, b < 256) → load (save img) = img →
      base64_to_pil load (pil_to_base64 save img) = img ∧
      ∀ pfx : List Char, ',' ∉ pfx →
        base64_to_pil load (pfx ++ ',' :: pil_to_base64 save img) = img := by
  intro α save load img hb hload
  constructor
  · unfold base64_to_pil pil_to_base64
    rw [stripDataURL_no_comma _ (comma_not_mem_b64encode (save img)),
      b64decode_b64encode (save img) hb, hload]
  · intro pfx hp
    unfold base64_to_pil pil_to_base64
    rw [stripDataURL_dataURL pfx _ hp (comma_not_mem_b64encode (save img)),
      b64decode_b64encode (save img) hb, hload]

theorem C7_witness :
    (∀ b ∈ ([0, 77, 255, 128, 1] : List Nat), b < 256) ∧
      base64_to_pil (fun x : List Nat => x)
        (pil_to_base64 (fun x : List Nat => x) [0, 77, 255, 128, 1]) =
        [0, 77, 255, 128, 1] :=
  ⟨by decide,
   (C7_theorem (List Nat) (fun x => x) (fun x => x) [0, 77, 255, 128, 1]
     (by decide) rfl).1⟩

end AlexNetViz
